import Mathlib

/-!
# Verification of the CryptoMath finite-group core

Shallow embedding of the `cryptomath` C++ headers (`groupoid.hpp`, `monoid.hpp`,
`group.hpp`, `subgroup.hpp`, `normal_subgroup.hpp`, `coset.hpp`,
`factor_group.hpp`, `element_order.hpp`, `cyclic_group.hpp`,
`euler_function.hpp`).

The C++ `Set<T>` wraps a `std::set<T>` (sorted, duplicate-free), so carriers are
modelled as `Finset α` over a linearly ordered element type; iteration order of
a `std::set` is modelled by `Finset.sort (· ≤ ·)`, and `*s.begin()` by the head
of that sorted list.  Exceptions thrown by constructors and operations are
modelled with `Except GroupErr`.  Algorithms that, in the source, call the
checked `Groupoid::operate` on arguments that are provably in the carrier are
embedded with the raw operation `G.op`; the bridging fact that the checked
`operate` returns exactly `op a b` there (no throw branch reachable) is proved
as a theorem about `operateE` below.
-/

namespace CryptoMath

/-- Error taxonomy of the library: each constructor / operation throw site is
mapped to the violated law it reports. -/
inductive GroupErr : Type where
  | closureViolation : GroupErr
  | notAssociative : GroupErr
  | invalidIdentity : GroupErr
  | invalidInverse : GroupErr
  | elementNotInDomain : GroupErr
  | closureRuntime : GroupErr
  | logicError : GroupErr
  deriving DecidableEq

instance {ε σ : Type} [DecidableEq ε] [DecidableEq σ] :
    DecidableEq (Except ε σ) := fun x y =>
  match x, y with
  | .ok a, .ok b =>
      if h : a = b then .isTrue (by rw [h])
      else .isFalse (fun hh => h (by cases hh; rfl))
  | .error a, .error b =>
      if h : a = b then .isTrue (by rw [h])
      else .isFalse (fun hh => h (by cases hh; rfl))
  | .ok _, .error _ => .isFalse (fun hh => by cases hh)
  | .error _, .ok _ => .isFalse (fun hh => by cases hh)

/-- The raw data handed to the `Group` constructor: carrier set, binary
operation, identity candidate and inverse function
(`Group(elements, op, identity, inverse_func)` in `group.hpp`). -/
structure RawGroup (α : Type) where
  carrier : Finset α
  op : α → α → α
  e : α
  inv : α → α

variable {α : Type} [LinearOrder α]

/-- The iteration order of a `std::set` on a multiset of elements: the sorted
(ascending) enumeration.  Implemented by structural insertion sort so that it
evaluates inside the kernel; sortedness makes it invariant under permutation,
so it lifts to the multiset quotient. -/
def setListM (m : Multiset α) : List α :=
  Quot.lift (fun l => List.insertionSort (· ≤ ·) l)
    (fun l₁ l₂ h =>
      List.eq_of_perm_of_sorted
        ((List.perm_insertionSort _ l₁).trans
          (List.Perm.trans h (List.perm_insertionSort _ l₂).symm))
        (List.sorted_insertionSort _ l₁) (List.sorted_insertionSort _ l₂)) m

/-- The iteration order of a `std::set<T>`: its elements in ascending order. -/
def setList (s : Finset α) : List α := setListM s.val

/-- Closure check of the `Groupoid` constructor (`groupoid.hpp`, lines 34-43):
every `op(a,b)` with `a`, `b` in the carrier lands in the carrier. -/
def ClosureOK (G : RawGroup α) : Prop :=
  ∀ a ∈ G.carrier, ∀ b ∈ G.carrier, G.op a b ∈ G.carrier

/-- Associativity check of the `Semigroup` constructor
(`semigroup.hpp` via `Groupoid::is_associative`). -/
def AssocOK (G : RawGroup α) : Prop :=
  ∀ a ∈ G.carrier, ∀ b ∈ G.carrier, ∀ c ∈ G.carrier,
    G.op (G.op a b) c = G.op a (G.op b c)

/-- Identity checks of the `Monoid` constructor (`monoid.hpp`, lines 36-53):
the identity candidate is in the carrier and is a two-sided identity. -/
def IdentityOK (G : RawGroup α) : Prop :=
  G.e ∈ G.carrier ∧ ∀ a ∈ G.carrier, G.op G.e a = a ∧ G.op a G.e = a

/-- Inverse checks of the `Group` constructor (`group.hpp`, lines 44-65):
each element's supplied inverse is in the carrier and satisfies
`a ∘ a⁻¹ = a⁻¹ ∘ a = e`. -/
def InverseOK (G : RawGroup α) : Prop :=
  ∀ a ∈ G.carrier,
    G.inv a ∈ G.carrier ∧ G.op a (G.inv a) = G.e ∧ G.op (G.inv a) a = G.e

/-- A `Group` object exists exactly when the whole constructor chain
(Groupoid → Semigroup → Monoid → Group) succeeded. -/
def ValidGroup (G : RawGroup α) : Prop :=
  ClosureOK G ∧ AssocOK G ∧ IdentityOK G ∧ InverseOK G

instance (G : RawGroup α) : Decidable (ClosureOK G) := by
  unfold ClosureOK; infer_instance

instance (G : RawGroup α) : Decidable (AssocOK G) := by
  unfold AssocOK; infer_instance

instance (G : RawGroup α) : Decidable (IdentityOK G) := by
  unfold IdentityOK; infer_instance

instance (G : RawGroup α) : Decidable (InverseOK G) := by
  unfold InverseOK; infer_instance

instance (G : RawGroup α) : Decidable (ValidGroup G) := by
  unfold ValidGroup; infer_instance

/-- The whole constructor chain of `Group(elements, op, identity, inverse_func)`:
the checks run in base-class order (closure, then associativity, then identity,
then inverses), and the first failing layer's exception is reported. -/
def mkGroup (G : RawGroup α) : Except GroupErr (RawGroup α) :=
  if ¬ ClosureOK G then .error .closureViolation
  else if ¬ AssocOK G then .error .notAssociative
  else if ¬ IdentityOK G then .error .invalidIdentity
  else if ¬ InverseOK G then .error .invalidInverse
  else .ok G

/-- `Groupoid::operate` (`groupoid.hpp`, lines 49-58): domain check on both
arguments, apply the stored operation, then re-check closure at run time. -/
def operateE (G : RawGroup α) (a b : α) : Except GroupErr α :=
  if a ∈ G.carrier ∧ b ∈ G.carrier then
    if G.op a b ∈ G.carrier then .ok (G.op a b)
    else .error .closureRuntime
  else .error .elementNotInDomain

/-- `Group::inverse` (`group.hpp`, lines 99-109): domain check, then the
precomputed inverse map (which agrees with `inverse_func_` on the carrier). -/
def inverseE (G : RawGroup α) (a : α) : Except GroupErr α :=
  if a ∈ G.carrier then .ok (G.inv a) else .error .elementNotInDomain

/-- The binary-exponentiation loop of `Group::power` (`group.hpp`,
lines 140-150): `result` accumulates, `current` is squared each step,
the exponent is halved. -/
def powLoop (G : RawGroup α) : Nat → α → α → Except GroupErr α
  | 0, result, _ => .ok result
  | n + 1, result, current => do
      let result' ← if (n + 1) % 2 = 1 then operateE G result current
                    else .ok result
      let current' ← operateE G current current
      powLoop G ((n + 1) / 2) result' current'
  termination_by n => n
  decreasing_by
    simp_wf
    exact Nat.div_lt_self (Nat.succ_pos n) (by norm_num)

/-- `Group::power(a, n)` (`group.hpp`, lines 130-153): `n = 0` returns the
identity immediately; negative `n` inverts the argument first; positive `n`
runs the binary-exponentiation loop. -/
def powerE (G : RawGroup α) (a : α) (n : Int) : Except GroupErr α :=
  if n = 0 then .ok G.e
  else if n < 0 then do
    let ia ← inverseE G a
    powLoop G (-n).toNat G.e ia
  else powLoop G n.toNat G.e a

/-- Iterated powers as computed by the library's loops: `a⁰ = e` and
`aⁿ⁺¹ = aⁿ ∘ a` (every loop multiplies on the right, `operate(current, a)`). -/
def iterPow (G : RawGroup α) (a : α) : Nat → α
  | 0 => G.e
  | n + 1 => G.op (iterPow G a n) a

/-- The search loop of `ElementOrder::compute` (`element_order.hpp`,
lines 50-56): at entry of an iteration `current = aⁿ`; if it equals the
identity the step index `n` is returned, otherwise multiply by `a` and
continue; `rem` counts the remaining iterations (the C++ loop runs `n` from 1
to `|G|` inclusive). -/
def orderLoop (G : RawGroup α) (a : α) : α → Nat → Nat → Option Nat
  | _, 0, _ => none
  | current, rem + 1, n =>
      if current = G.e then some n
      else orderLoop G a (G.op current a) rem (n + 1)

/-- `ElementOrder::compute` (`element_order.hpp`, lines 36-61): domain check,
the identity short-circuits to order 1, otherwise powers of `a` are tried for
`|G|` steps starting from `current = a` at step 1. -/
def elementOrderCompute (G : RawGroup α) (a : α) : Except GroupErr (Option Nat) :=
  if a ∉ G.carrier then .error .elementNotInDomain
  else if a = G.e then .ok (some 1)
  else .ok (orderLoop G a a G.carrier.card 1)

/-- Left coset `g ∘ H` as built by `Coset::build_coset` (`coset.hpp`,
lines 102-107): insert `operate(g, h)` for every `h ∈ H` into a fresh set. -/
def leftCoset (G : RawGroup α) (g : α) (H : Finset α) : Finset α :=
  H.image (fun h => G.op g h)

/-- Right coset `H ∘ g` (`coset.hpp`, lines 108-114). -/
def rightCoset (G : RawGroup α) (g : α) (H : Finset α) : Finset α :=
  H.image (fun h => G.op h g)

/-- `Subgroup::verify_subgroup_criterion` (`subgroup.hpp`, lines 55-80):
nonempty, contained in the parent carrier, and closed under `a ∘ b⁻¹`. -/
def SubgroupOK (G : RawGroup α) (H : Finset α) : Prop :=
  H.Nonempty ∧ (∀ a ∈ H, a ∈ G.carrier) ∧
    ∀ a ∈ H, ∀ b ∈ H, G.op a (G.inv b) ∈ H

instance (G : RawGroup α) (H : Finset α) : Decidable (SubgroupOK G H) := by
  unfold SubgroupOK; infer_instance

/-- `NormalSubgroup::verify_normal` (`normal_subgroup.hpp`, lines 59-74):
`g ∘ n ∘ g⁻¹ ∈ N` for every `g` in the parent carrier and `n ∈ N`. -/
def NormalConj (G : RawGroup α) (H : Finset α) : Prop :=
  ∀ g ∈ G.carrier, ∀ n ∈ H, G.op (G.op g n) (G.inv g) ∈ H

instance (G : RawGroup α) (H : Finset α) : Decidable (NormalConj G H) := by
  unfold NormalConj; infer_instance

/-- `NormalSubgroup::verify_normal_via_cosets` (`normal_subgroup.hpp`,
lines 81-103): the left and right cosets of every parent element agree. -/
def NormalCosets (G : RawGroup α) (H : Finset α) : Prop :=
  ∀ g ∈ G.carrier, leftCoset G g H = rightCoset G g H

instance (G : RawGroup α) (H : Finset α) : Decidable (NormalCosets G H) := by
  unfold NormalCosets; infer_instance

/-- `LagrangesTheorem::find_all_cosets` (`coset.hpp`, lines 163-192): walk the
parent carrier in its (sorted) iteration order; skip an element that already
lies in a collected coset, otherwise insert its left coset.  (The `processed`
set in the source is written but never read; the skip test scans the collected
cosets.) -/
def findAllCosets (G : RawGroup α) (H : Finset α) : Finset (Finset α) :=
  (setList G.carrier).foldl
    (fun cosets g =>
      if ∃ c ∈ cosets, g ∈ c then cosets
      else insert (leftCoset G g H) cosets)
    ∅

/-- `LagrangesTheorem::verify` (`coset.hpp`, lines 145-151):
`|G| == |H| * index` where the index is the number of found cosets. -/
def lagrangeVerify (G : RawGroup α) (H : Finset α) : Bool :=
  G.carrier.card == H.card * (findAllCosets G H).card

/-- The `CosetType` enumeration of `coset.hpp`. -/
inductive CosetSide : Type where
  | left : CosetSide
  | right : CosetSide
  deriving DecidableEq

/-- The `Coset` constructor (`coset.hpp`, lines 39-44 and 99-115): apply the
subgroup's elements to the representative on the chosen side through the
checked `operate`, collecting the results; the first `operate` throw aborts
construction. -/
def buildCosetE (G : RawGroup α) (H : Finset α) (rep : α) :
    CosetSide → Except GroupErr (Finset α)
  | .left =>
      (setList H).foldlM
        (fun acc h => (operateE G rep h).map (fun x => insert x acc)) ∅
  | .right =>
      (setList H).foldlM
        (fun acc h => (operateE G h rep).map (fun x => insert x acc)) ∅

/-- `*s.begin()` of a `std::set`: the least element, i.e. the head of the
sorted element list (none on the empty set, where the C++ dereference would be
undefined). -/
def sortedFirst (s : Finset α) : Option α :=
  (setList s).head?

/-- `FactorGroup::find_coset_containing` (`factor_group.hpp`, lines 190-196):
look the element up in the element→coset map built from the partition; a miss
raises `logic_error`.  Modelled as a deterministic choice among the cosets
containing `x` (via the lexicographic order on their sorted element lists, the
`std::set<Set<T>>` order); when the cosets partition the carrier the filter
result is a singleton, so the choice is unique and agrees with the map lookup. -/
def findCosetContaining (cosets : Finset (Finset α)) (x : α) :
    Except GroupErr (Finset α) :=
  let hits := (cosets.filter (fun c => x ∈ c)).image (fun c => setList c)
  if h : hits.Nonempty then .ok (hits.min' h).toFinset
  else .error .logicError

/-- `FactorGroup::operate` (`factor_group.hpp`, lines 74-89): validate both
cosets against the stored partition, take `*begin()` of each as
representative, multiply them in the parent group (checked `operate`), and
return the coset containing the product. -/
def factorOperate (G : RawGroup α) (H : Finset α) (ca cb : Finset α) :
    Except GroupErr (Finset α) :=
  let cosets := findAllCosets G H
  if ca ∈ cosets ∧ cb ∈ cosets then
    match sortedFirst ca, sortedFirst cb with
    | some ra, some rb => do
        let p ← operateE G ra rb
        findCosetContaining cosets p
    | _, _ => .error .logicError
  else .error .elementNotInDomain

/-- `CyclicGroup::is_generator` (`cyclic_group.hpp`, lines 67-79): membership
check, then the element's order must equal the group order. -/
def isGeneratorB (G : RawGroup α) (g : α) : Bool :=
  if g ∈ G.carrier then
    match elementOrderCompute G g with
    | .ok (some ord) => ord == G.carrier.card
    | _ => false
  else false

/-- `CyclicGroup::find_generator` (`cyclic_group.hpp`, lines 49-60): the first
element in the carrier's iteration order that is a generator. -/
def findGenerator (G : RawGroup α) : Option α :=
  (setList G.carrier).find? (fun g => isGeneratorB G g)

/-- The finite-order loop of `CyclicGroup::generate_cyclic_subgroup`
(`cyclic_group.hpp`, lines 131-136): starting at `current = g`, insert the
current power and advance, `ord - 1` times. -/
def cyclicLoop (G : RawGroup α) (g : α) : Nat → α → Finset α → Finset α
  | 0, _, acc => acc
  | k + 1, current, acc => cyclicLoop G g k (G.op current g) (insert current acc)

/-- The infinite-order fallback loop of `generate_cyclic_subgroup`
(`cyclic_group.hpp`, lines 119-129): up to `|G|` iterations, stopping when the
identity recurs after the first step. -/
def cyclicInfLoop (G : RawGroup α) (g : α) : Nat → Nat → α → Finset α → Finset α
  | 0, _, _, acc => acc
  | k + 1, i, current, acc =>
      if current = G.e ∧ 0 < i then acc
      else cyclicInfLoop G g k (i + 1) (G.op current g) (insert current acc)

/-- `CyclicGroup::generate_cyclic_subgroup` (`cyclic_group.hpp`,
lines 108-139): domain check, seed the result with the identity, compute the
generator's order and replay its powers. -/
def generateCyclicSubgroup (G : RawGroup α) (g : α) : Except GroupErr (Finset α) :=
  if g ∉ G.carrier then .error .elementNotInDomain
  else
    match elementOrderCompute G g with
    | .error err => .error err
    | .ok none => .ok (cyclicInfLoop G g G.carrier.card 0 g {G.e})
    | .ok (some ord) => .ok (cyclicLoop G g (ord - 1) g {G.e})

namespace EulerFunction

/-- The inner `while (temp % p == 0) temp /= p;` of `EulerFunction::compute`
(`euler_function.hpp`, line 60-62), driven by fuel; at every call site the
divisor is at least 2, so `temp` strictly shrinks at each division and fuel
`temp` is more than enough. -/
def phiStrip (p : Nat) : Nat → Nat → Nat
  | 0, t => t
  | f + 1, t => if t % p = 0 then phiStrip p f (t / p) else t

/-- The trial-division loop of `EulerFunction::compute` (`euler_function.hpp`,
lines 55-73), driven by fuel: while `p * p ≤ temp`, strip each prime divisor
and multiply `result` by `(p - 1) / p`; afterwards handle a remaining prime
factor.  The trial divisor starts at 2 and grows each step, so fuel `n`
suffices for the top-level call. -/
def phiMain : Nat → Nat → Nat → Nat → Nat
  | 0, _, temp, result => if 1 < temp then result / temp * (temp - 1) else result
  | f + 1, p, temp, result =>
      if p * p ≤ temp then
        if temp % p = 0 then
          phiMain f (p + 1) (phiStrip p temp temp) (result / p * (p - 1))
        else phiMain f (p + 1) temp result
      else if 1 < temp then result / temp * (temp - 1) else result

/-- `EulerFunction::compute` (`euler_function.hpp`, lines 45-74). -/
def compute (n : Nat) : Nat :=
  if n = 0 then 0
  else if n = 1 then 1
  else phiMain n 2 n n

/-- `EulerFunction::verify_sum_over_divisors` (`euler_function.hpp`,
lines 179-187): sum `compute(d)` over the divisors `d` of `n` (the C++ loop
runs `d` from 1 to `n` inclusive) and compare with `n`. -/
def verifySumOverDivisors (n : Nat) : Bool :=
  ((List.range n).foldl
    (fun sum d => if n % (d + 1) = 0 then sum + compute (d + 1) else sum) 0) == n

end EulerFunction

/-- Z₆ = ({0,…,5}, + mod 6, identity 0, inverse `(6 - a) % 6`): the spec's
concrete scenario A, used as the witness group. -/
def Z6 : RawGroup ℕ :=
  ⟨{0, 1, 2, 3, 4, 5}, fun a b => (a + b) % 6, 0, fun a => (6 - a) % 6⟩

/-- Carrier {0,1,2} with multiplication mod 3 and identity candidate 1, with
an arbitrary inverse function: the spec's negative scenario. -/
def M3 (inv : ℕ → ℕ) : RawGroup ℕ :=
  ⟨{0, 1, 2}, fun a b => a * b % 3, 1, inv⟩

/-!
## Theorems
-/

/-- For a closed operation, `operate` on carrier elements returns the raw
operation's value and hits neither throw branch. -/
theorem operateE_ok (G : RawGroup α) (hclo : ClosureOK G) {a b : α}
    (ha : a ∈ G.carrier) (hb : b ∈ G.carrier) :
    operateE G a b = .ok (G.op a b) := by
  unfold operateE
  rw [if_pos ⟨ha, hb⟩, if_pos (hclo a ha b hb)]

/-- `operate` with the first argument outside the carrier reports a domain
error. -/
theorem operateE_err_left (G : RawGroup α) {a : α} (b : α)
    (ha : a ∉ G.carrier) :
    operateE G a b = .error .elementNotInDomain := by
  unfold operateE
  rw [if_neg]
  intro h
  exact ha h.1

/-- `operate` with the second argument outside the carrier reports a domain
error. -/
theorem operateE_err_right (G : RawGroup α) (a : α) {b : α}
    (hb : b ∉ G.carrier) :
    operateE G a b = .error .elementNotInDomain := by
  unfold operateE
  rw [if_neg]
  intro h
  exact hb h.2

/-- C9: For every successfully constructed Groupoid and every pair of carrier
elements, `operate(a, b)` returns `op(a, b)` without raising any error: the
run-time closure re-check branch inside `operate` is unreachable because
construction already validated closure for every ordered pair. -/
theorem groupoid_operate_never_throws (G : RawGroup α)
    (hmk : ClosureOK G) (a b : α)
    (ha : a ∈ G.carrier) (hb : b ∈ G.carrier) :
    operateE G a b = .ok (G.op a b) :=
  operateE_ok G hmk ha hb

/-- Witness for C9 on Z₆. -/
theorem groupoid_operate_never_throws_witness :
    ClosureOK Z6 ∧ operateE Z6 4 5 = .ok 3 :=
  ⟨by decide, groupoid_operate_never_throws Z6 (by decide) 4 5 (by decide) (by decide)⟩

/-- `setListM` returns a list carrying the same multiset. -/
theorem setListM_coe_eq (m : Multiset α) : (setListM m : Multiset α) = m :=
  Quot.inductionOn m (fun l => Multiset.coe_eq_coe.mpr (List.perm_insertionSort _ l))

/-- `setListM` returns a sorted list. -/
theorem setListM_sorted (m : Multiset α) : List.Sorted (· ≤ ·) (setListM m) :=
  Quot.inductionOn m (fun l => List.sorted_insertionSort _ l)

/-- The executable iteration order agrees with Mathlib's `Finset.sort`. -/
theorem setList_eq_sort (s : Finset α) : setList s = s.sort (· ≤ ·) := by
  apply List.eq_of_perm_of_sorted _ (setListM_sorted _) (Finset.sort_sorted _ _)
  apply Multiset.coe_eq_coe.mp
  rw [setListM_coe_eq, Finset.sort_eq]

/-- Membership in the iteration order is membership in the set. -/
theorem mem_setList {s : Finset α} {a : α} : a ∈ setList s ↔ a ∈ s := by
  rw [setList_eq_sort, Finset.mem_sort]

/-- The iteration order of a set collects back to the set. -/
theorem setList_toFinset (s : Finset α) : (setList s).toFinset = s := by
  rw [setList_eq_sort, Finset.sort_toFinset]

/-- A nonempty set has a first element, and it belongs to the set. -/
theorem sortedFirst_mem {s : Finset α} (h : s.Nonempty) :
    ∃ a ∈ s, sortedFirst s = some a := by
  unfold sortedFirst
  cases hl : setList s with
  | nil =>
      exfalso
      obtain ⟨a, ha⟩ := h
      have : a ∈ setList s := mem_setList.mpr ha
      rw [hl] at this
      exact (List.not_mem_nil a) this
  | cons b l =>
      refine ⟨b, ?_, rfl⟩
      have : b ∈ setList s := by rw [hl]; exact List.mem_cons_self b l
      exact mem_setList.mp this

/-- C8: `EulerFunction::compute` returns 1, 2, 6, 4 on inputs 1, 6, 7, 12, and
for each of these `n` the sum of `compute(d)` over the positive divisors `d`
of `n` equals `n`, so `verify_sum_over_divisors` returns true. -/
theorem euler_concrete_values :
    EulerFunction.compute 1 = 1 ∧ EulerFunction.compute 6 = 2 ∧
    EulerFunction.compute 7 = 6 ∧ EulerFunction.compute 12 = 4 ∧
    (Nat.divisors 1).sum EulerFunction.compute = 1 ∧
    (Nat.divisors 6).sum EulerFunction.compute = 6 ∧
    (Nat.divisors 7).sum EulerFunction.compute = 7 ∧
    (Nat.divisors 12).sum EulerFunction.compute = 12 ∧
    EulerFunction.verifySumOverDivisors 1 = true ∧
    EulerFunction.verifySumOverDivisors 6 = true ∧
    EulerFunction.verifySumOverDivisors 7 = true ∧
    EulerFunction.verifySumOverDivisors 12 = true := by
  decide

/-- C10: For a valid group, `power(a, 0)` returns the identity for every
argument `a`, even one outside the carrier (the zero-exponent branch performs
no domain check), while `power(a, n)` with `n ≠ 0` and `a` outside the carrier
reports a domain error (negative `n` via `inverse`, positive `n` via the first
`operate` of the loop). -/
theorem power_zero_bypasses_domain_check (G : RawGroup α) (_hG : ValidGroup G) :
    (∀ a : α, powerE G a 0 = .ok G.e) ∧
    (∀ a : α, a ∉ G.carrier → ∀ n : Int, n ≠ 0 →
      powerE G a n = .error .elementNotInDomain) := by
  constructor
  · intro a
    simp [powerE]
  · intro a ha n hn
    unfold powerE
    rw [if_neg hn]
    by_cases hneg : n < 0
    · rw [if_pos hneg]
      show (inverseE G a >>= fun ia => powLoop G (-n).toNat G.e ia) =
        .error .elementNotInDomain
      rw [inverseE, if_neg ha]
      rfl
    · rw [if_neg hneg]
      have hpos : 0 < n := lt_of_le_of_ne (not_lt.mp hneg) (Ne.symm hn)
      obtain ⟨m, hm⟩ : ∃ m, n.toNat = m + 1 := by
        refine ⟨n.toNat - 1, ?_⟩
        omega
      rw [hm, powLoop]
      by_cases hodd : (m + 1) % 2 = 1
      · rw [if_pos hodd, operateE_err_right G G.e ha]
        rfl
      · rw [if_neg hodd]
        show (operateE G a a >>= fun c => powLoop G ((m + 1) / 2) G.e c) =
          .error .elementNotInDomain
        rw [operateE_err_left G a ha]
        rfl

/-- Witness for C10 on Z₆ with the foreign element 7. -/
theorem power_zero_bypasses_domain_check_witness :
    ValidGroup Z6 ∧ powerE Z6 7 0 = .ok Z6.e ∧
    powerE Z6 7 3 = .error .elementNotInDomain :=
  ⟨by decide, (power_zero_bypasses_domain_check Z6 (by decide)).1 7,
    (power_zero_bypasses_domain_check Z6 (by decide)).2 7 (by decide) 3 (by decide)⟩

/-- The closure, associativity and identity layers of the {0,1,2}-mod-3
scenario pass for every supplied inverse function (they never consult it). -/
theorem M3_lower_layers (inv : ℕ → ℕ) :
    ClosureOK (M3 inv) ∧ AssocOK (M3 inv) ∧ IdentityOK (M3 inv) := by
  refine ⟨?_, ?_, ?_, ?_⟩
  · intro a ha b hb
    show a * b % 3 ∈ ({0, 1, 2} : Finset ℕ)
    have : a * b % 3 < 3 := Nat.mod_lt _ (by norm_num)
    simp only [Finset.mem_insert, Finset.mem_singleton]
    omega
  · intro a ha b hb c hc
    fin_cases ha <;> fin_cases hb <;> fin_cases hc <;> simp [M3]
  · show (1 : ℕ) ∈ ({0, 1, 2} : Finset ℕ)
    decide
  · intro a ha
    fin_cases ha <;> exact ⟨rfl, rfl⟩

/-- C5: Given that the closure, associativity and identity layers pass, the
`Group` constructor fails with an invalid-inverse error exactly when some
carrier element's supplied inverse is outside the carrier or fails
`a∘a⁻¹ = a⁻¹∘a = e`; in particular the carrier {0,1,2} with multiplication
mod 3 and identity candidate 1 is rejected with that error for every inverse
function, because 0 has no inverse. -/
theorem group_ctor_invalid_inverse (G : RawGroup α)
    (hclo : ClosureOK G) (hassoc : AssocOK G) (hid : IdentityOK G) :
    (mkGroup G = .error .invalidInverse ↔
      ∃ a ∈ G.carrier, G.inv a ∉ G.carrier ∨
        G.op a (G.inv a) ≠ G.e ∨ G.op (G.inv a) a ≠ G.e) ∧
    (∀ inv : ℕ → ℕ, mkGroup (M3 inv) = .error .invalidInverse) := by
  constructor
  · unfold mkGroup
    rw [if_neg (not_not_intro hclo), if_neg (not_not_intro hassoc),
      if_neg (not_not_intro hid)]
    constructor
    · intro h
      by_cases hInv : InverseOK G
      · rw [if_neg (not_not_intro hInv)] at h
        exact absurd h (by simp)
      · unfold InverseOK at hInv
        push_neg at hInv
        obtain ⟨a, ha, hfail⟩ := hInv
        refine ⟨a, ha, ?_⟩
        by_cases h1 : G.inv a ∈ G.carrier
        · right
          by_cases h2 : G.op a (G.inv a) = G.e
          · exact Or.inr (fun h3 => hfail h1 h2 h3)
          · exact Or.inl h2
        · exact Or.inl h1
    · intro h
      have hInv : ¬ InverseOK G := by
        intro hOK
        obtain ⟨a, ha, hfail⟩ := h
        obtain ⟨h1, h2, h3⟩ := hOK a ha
        rcases hfail with h | h | h
        · exact h h1
        · exact h h2
        · exact h h3
      rw [if_pos hInv]
  · intro inv
    obtain ⟨hc, ha, hi⟩ := M3_lower_layers inv
    have hInv : ¬ InverseOK (M3 inv) := by
      intro hOK
      have h0 : (0 : ℕ) ∈ (M3 inv).carrier := by
        show (0 : ℕ) ∈ ({0, 1, 2} : Finset ℕ)
        decide
      have := (hOK 0 h0).2.1
      simp [M3] at this
    unfold mkGroup
    rw [if_neg (not_not_intro hc), if_neg (not_not_intro ha),
      if_neg (not_not_intro hi), if_pos hInv]

/-- Witness for C5 on carrier {0,1,2}, multiplication mod 3, identity 1, with
the identity function as the supplied inverse. -/
theorem group_ctor_invalid_inverse_witness :
    ClosureOK (M3 (fun a => a)) ∧
    mkGroup (M3 (fun a => a)) = .error .invalidInverse :=
  ⟨by decide,
    (group_ctor_invalid_inverse (M3 (fun a => a)) (by decide) (by decide)
      (by decide)).2 (fun a => a)⟩

/-!
### Elementary consequences of a valid group structure

All laws only hold on the carrier, so every lemma tracks membership.
-/

/-- The identity of a valid group is in the carrier. -/
theorem vg_e_mem {G : RawGroup α} (h : ValidGroup G) : G.e ∈ G.carrier :=
  h.2.2.1.1

/-- The carrier of a valid group is closed under the operation. -/
theorem vg_op_mem {G : RawGroup α} (h : ValidGroup G) {a b : α}
    (ha : a ∈ G.carrier) (hb : b ∈ G.carrier) : G.op a b ∈ G.carrier :=
  h.1 a ha b hb

/-- The carrier of a valid group is closed under the inverse function. -/
theorem vg_inv_mem {G : RawGroup α} (h : ValidGroup G) {a : α}
    (ha : a ∈ G.carrier) : G.inv a ∈ G.carrier :=
  (h.2.2.2 a ha).1

/-- Associativity on the carrier of a valid group. -/
theorem vg_assoc {G : RawGroup α} (h : ValidGroup G) {a b c : α}
    (ha : a ∈ G.carrier) (hb : b ∈ G.carrier) (hc : c ∈ G.carrier) :
    G.op (G.op a b) c = G.op a (G.op b c) :=
  h.2.1 a ha b hb c hc

/-- Left identity on the carrier. -/
theorem vg_e_op {G : RawGroup α} (h : ValidGroup G) {a : α}
    (ha : a ∈ G.carrier) : G.op G.e a = a :=
  (h.2.2.1.2 a ha).1

/-- Right identity on the carrier. -/
theorem vg_op_e {G : RawGroup α} (h : ValidGroup G) {a : α}
    (ha : a ∈ G.carrier) : G.op a G.e = a :=
  (h.2.2.1.2 a ha).2

/-- Right inverse law on the carrier. -/
theorem vg_op_inv {G : RawGroup α} (h : ValidGroup G) {a : α}
    (ha : a ∈ G.carrier) : G.op a (G.inv a) = G.e :=
  (h.2.2.2 a ha).2.1

/-- Left inverse law on the carrier. -/
theorem vg_inv_op {G : RawGroup α} (h : ValidGroup G) {a : α}
    (ha : a ∈ G.carrier) : G.op (G.inv a) a = G.e :=
  (h.2.2.2 a ha).2.2

/-- Left cancellation on the carrier. -/
theorem vg_left_cancel {G : RawGroup α} (h : ValidGroup G) {a b c : α}
    (ha : a ∈ G.carrier) (hb : b ∈ G.carrier) (hc : c ∈ G.carrier)
    (heq : G.op a b = G.op a c) : b = c := by
  have h1 : G.op (G.inv a) (G.op a b) = G.op (G.inv a) (G.op a c) := by rw [heq]
  rw [← vg_assoc h (vg_inv_mem h ha) ha hb, ← vg_assoc h (vg_inv_mem h ha) ha hc,
    vg_inv_op h ha, vg_e_op h hb, vg_e_op h hc] at h1
  exact h1

/-- Right cancellation on the carrier. -/
theorem vg_right_cancel {G : RawGroup α} (h : ValidGroup G) {a b c : α}
    (ha : a ∈ G.carrier) (hb : b ∈ G.carrier) (hc : c ∈ G.carrier)
    (heq : G.op b a = G.op c a) : b = c := by
  have h1 : G.op (G.op b a) (G.inv a) = G.op (G.op c a) (G.inv a) := by rw [heq]
  rw [vg_assoc h hb ha (vg_inv_mem h ha), vg_assoc h hc ha (vg_inv_mem h ha),
    vg_op_inv h ha, vg_op_e h hb, vg_op_e h hc] at h1
  exact h1

/-- The supplied inverse is involutive on the carrier. -/
theorem vg_inv_inv {G : RawGroup α} (h : ValidGroup G) {a : α}
    (ha : a ∈ G.carrier) : G.inv (G.inv a) = a := by
  apply vg_left_cancel h (vg_inv_mem h ha)
    (vg_inv_mem h (vg_inv_mem h ha)) ha
  rw [vg_op_inv h (vg_inv_mem h ha), vg_inv_op h ha]

/-- Iterated powers of a carrier element stay in the carrier. -/
theorem iterPow_mem {G : RawGroup α} (h : ValidGroup G) {a : α}
    (ha : a ∈ G.carrier) : ∀ n, iterPow G a n ∈ G.carrier
  | 0 => vg_e_mem h
  | n + 1 => vg_op_mem h (iterPow_mem h ha n) ha

/-- The first power is the element itself. -/
theorem iterPow_one {G : RawGroup α} (h : ValidGroup G) {a : α}
    (ha : a ∈ G.carrier) : iterPow G a 1 = a := by
  show G.op (iterPow G a 0) a = a
  show G.op G.e a = a
  exact vg_e_op h ha

/-- Power addition law for the loop-style powers. -/
theorem iterPow_add {G : RawGroup α} (h : ValidGroup G) {a : α}
    (ha : a ∈ G.carrier) (m n : Nat) :
    iterPow G a (m + n) = G.op (iterPow G a m) (iterPow G a n) := by
  induction n with
  | zero =>
      show iterPow G a m = G.op (iterPow G a m) G.e
      rw [vg_op_e h (iterPow_mem h ha m)]
  | succ n ih =>
      show iterPow G a (m + n + 1) = G.op (iterPow G a m) (iterPow G a (n + 1))
      show G.op (iterPow G a (m + n)) a =
        G.op (iterPow G a m) (G.op (iterPow G a n) a)
      rw [ih, vg_assoc h (iterPow_mem h ha m) (iterPow_mem h ha n) ha]

/-- Characterisation of a successful `ElementOrder` search: starting the loop
at step `n` with `current = aⁿ`, it returns `some m` exactly when `m` is the
first index at or after `n`, within the remaining budget, whose power is the
identity. -/
theorem orderLoop_some_iff {G : RawGroup α} (a : α) :
    ∀ rem n m, orderLoop G a (iterPow G a n) rem n = some m ↔
      (n ≤ m ∧ m < n + rem ∧ iterPow G a m = G.e ∧
        ∀ k, n ≤ k → k < m → iterPow G a k ≠ G.e) := by
  intro rem
  induction rem with
  | zero =>
      intro n m
      constructor
      · intro hc
        exact Option.noConfusion hc
      · intro ⟨h1, h2, _⟩
        omega
  | succ rem ih =>
      intro n m
      show (if iterPow G a n = G.e then some n
        else orderLoop G a (G.op (iterPow G a n) a) rem (n + 1)) = some m ↔ _
      by_cases he : iterPow G a n = G.e
      · rw [if_pos he]
        constructor
        · intro hc
          have hmn : m = n := by
            have := Option.some.inj hc
            omega
          subst hmn
          exact ⟨le_refl m, by omega, he, fun k h1 h2 _ => by omega⟩
        · intro ⟨h1, _, _, h4⟩
          by_cases hmn : m = n
          · rw [hmn]
          · exact absurd he (h4 n (le_refl n) (by omega))
      · rw [if_neg he]
        have hstep : G.op (iterPow G a n) a = iterPow G a (n + 1) := rfl
        rw [hstep, ih (n + 1) m]
        constructor
        · intro ⟨h1, h2, h3, h4⟩
          refine ⟨by omega, by omega, h3, ?_⟩
          intro k hk1 hk2
          by_cases hkn : k = n
          · rw [hkn]; exact he
          · exact h4 k (by omega) hk2
        · intro ⟨h1, h2, h3, h4⟩
          have hmn : m ≠ n := fun hc => he (hc ▸ h3)
          exact ⟨by omega, by omega, h3, fun k hk1 hk2 => h4 k (by omega) hk2⟩

/-- Characterisation of a failed `ElementOrder` search: the loop exhausts its
budget exactly when no power in the scanned range is the identity. -/
theorem orderLoop_none_iff {G : RawGroup α} (a : α) :
    ∀ rem n, orderLoop G a (iterPow G a n) rem n = none ↔
      ∀ k, n ≤ k → k < n + rem → iterPow G a k ≠ G.e := by
  intro rem
  induction rem with
  | zero =>
      intro n
      constructor
      · intro _ k h1 h2
        exact absurd h2 (by omega)
      · intro _
        rfl
  | succ rem ih =>
      intro n
      show (if iterPow G a n = G.e then some n
        else orderLoop G a (G.op (iterPow G a n) a) rem (n + 1)) = none ↔ _
      by_cases he : iterPow G a n = G.e
      · rw [if_pos he]
        constructor
        · intro hc
          exact absurd hc (by simp)
        · intro hall
          exact absurd he (hall n (le_refl n) (by omega))
      · rw [if_neg he]
        have hstep : G.op (iterPow G a n) a = iterPow G a (n + 1) := rfl
        rw [hstep, ih (n + 1)]
        constructor
        · intro hall k hk1 hk2
          by_cases hkn : k = n
          · rw [hkn]; exact he
          · exact hall k (by omega) (by omega)
        · intro hall k hk1 hk2
          exact hall k (by omega) (by omega)

/-- The search of `ElementOrder::compute` as started by the source
(`current = a` at step 1), successful case. -/
theorem orderLoop_start_some_iff {G : RawGroup α} (hG : ValidGroup G) {a : α}
    (ha : a ∈ G.carrier) (rem m : Nat) :
    orderLoop G a a rem 1 = some m ↔
      (1 ≤ m ∧ m < 1 + rem ∧ iterPow G a m = G.e ∧
        ∀ k, 1 ≤ k → k < m → iterPow G a k ≠ G.e) := by
  have h1 := orderLoop_some_iff (G := G) a rem 1 m
  rw [iterPow_one hG ha] at h1
  exact h1

/-- The search of `ElementOrder::compute` as started by the source
(`current = a` at step 1), exhausted case. -/
theorem orderLoop_start_none_iff {G : RawGroup α} (hG : ValidGroup G) {a : α}
    (ha : a ∈ G.carrier) (rem : Nat) :
    orderLoop G a a rem 1 = none ↔
      ∀ k, 1 ≤ k → k < 1 + rem → iterPow G a k ≠ G.e := by
  have h1 := orderLoop_none_iff (G := G) a rem 1
  rw [iterPow_one hG ha] at h1
  exact h1

/-- C3: For a valid group and a carrier element `a`, `ElementOrder::compute`
returns the smallest positive `n` with `aⁿ = e` whenever such an `n` exists
within `|G|` iterations, returns an absent optional (never zero) when no such
`n ≤ |G|` exists, and returns 1 for the identity. -/
theorem elementOrder_spec (G : RawGroup α) (hG : ValidGroup G) (a : α)
    (ha : a ∈ G.carrier) :
    (∀ n, elementOrderCompute G a = .ok (some n) →
      0 < n ∧ iterPow G a n = G.e ∧
        ∀ m, 0 < m → m < n → iterPow G a m ≠ G.e) ∧
    (∀ n, 0 < n → n ≤ G.carrier.card → iterPow G a n = G.e →
      ∃ m, elementOrderCompute G a = .ok (some m)) ∧
    (elementOrderCompute G a = .ok none ↔
      ∀ n, 0 < n → n ≤ G.carrier.card → iterPow G a n ≠ G.e) ∧
    (a = G.e → elementOrderCompute G a = .ok (some 1)) := by
  have hcard : 0 < G.carrier.card := Finset.card_pos.mpr ⟨G.e, vg_e_mem hG⟩
  unfold elementOrderCompute
  rw [if_neg (not_not_intro ha)]
  by_cases hae : a = G.e
  · rw [if_pos hae]
    have hpow1 : iterPow G a 1 = G.e := by rw [iterPow_one hG ha, hae]
    refine ⟨?_, ?_, ?_, fun _ => rfl⟩
    · intro n hn
      have hn1 : n = 1 := by
        have := Option.some.inj (Except.ok.inj hn)
        omega
      subst hn1
      exact ⟨by omega, hpow1, fun m h1 h2 => by omega⟩
    · intro n _ _ _
      exact ⟨1, rfl⟩
    · constructor
      · intro hc
        exact absurd (Except.ok.inj hc) (by simp)
      · intro hall
        exact absurd hpow1 (hall 1 (by omega) hcard)
  · rw [if_neg hae]
    refine ⟨?_, ?_, ?_, fun hc => absurd hc hae⟩
    · intro n hn
      have hsome : orderLoop G a a G.carrier.card 1 = some n := Except.ok.inj hn
      obtain ⟨h1, _, h3, h4⟩ :=
        (orderLoop_start_some_iff hG ha G.carrier.card n).mp hsome
      exact ⟨by omega, h3, fun m hm1 hm2 => h4 m (by omega) hm2⟩
    · intro n hn1 hn2 hpow
      rcases hloop : orderLoop G a a G.carrier.card 1 with _ | m
      · exfalso
        exact (orderLoop_start_none_iff hG ha G.carrier.card).mp hloop n
          (by omega) (by omega) hpow
      · exact ⟨m, rfl⟩
    · constructor
      · intro hc
        have hnone : orderLoop G a a G.carrier.card 1 = none := Except.ok.inj hc
        intro n hn1 hn2
        exact (orderLoop_start_none_iff hG ha G.carrier.card).mp hnone n
          (by omega) (by omega)
      · intro hall
        have hnone : orderLoop G a a G.carrier.card 1 = none :=
          (orderLoop_start_none_iff hG ha G.carrier.card).mpr
            (fun k h1 h2 => hall k (by omega) (by omega))
        rw [hnone]

/-- Witness for C3 on Z₆: the element 2 has order 3. -/
theorem elementOrder_spec_witness :
    ValidGroup Z6 ∧ (2 : ℕ) ∈ Z6.carrier ∧
    elementOrderCompute Z6 2 = .ok (some 3) ∧ iterPow Z6 2 3 = Z6.e :=
  ⟨by decide, by decide, by decide,
    ((elementOrder_spec Z6 (by decide) 2 (by decide)).1 3 (by decide)).2.1⟩

/-!
### Subgroup and coset lemmas
-/

/-- A verified subgroup is contained in the parent carrier. -/
theorem sg_subset {G : RawGroup α} {H : Finset α} (hH : SubgroupOK G H)
    {a : α} (ha : a ∈ H) : a ∈ G.carrier :=
  hH.2.1 a ha

/-- A verified subgroup contains the identity (`a ∘ a⁻¹` with `a` any
member). -/
theorem sg_e_mem {G : RawGroup α} {H : Finset α} (hG : ValidGroup G)
    (hH : SubgroupOK G H) : G.e ∈ H := by
  obtain ⟨a, ha⟩ := hH.1
  have h1 := hH.2.2 a ha a ha
  rw [vg_op_inv hG (sg_subset hH ha)] at h1
  exact h1

/-- A verified subgroup contains inverses (`e ∘ b⁻¹`). -/
theorem sg_inv_mem {G : RawGroup α} {H : Finset α} (hG : ValidGroup G)
    (hH : SubgroupOK G H) {b : α} (hb : b ∈ H) : G.inv b ∈ H := by
  have h1 := hH.2.2 G.e (sg_e_mem hG hH) b hb
  rw [vg_e_op hG (vg_inv_mem hG (sg_subset hH hb))] at h1
  exact h1

/-- A verified subgroup is closed under the operation (`a ∘ (b⁻¹)⁻¹`). -/
theorem sg_op_mem {G : RawGroup α} {H : Finset α} (hG : ValidGroup G)
    (hH : SubgroupOK G H) {a b : α} (ha : a ∈ H) (hb : b ∈ H) :
    G.op a b ∈ H := by
  have h1 := hH.2.2 a ha (G.inv b) (sg_inv_mem hG hH hb)
  rw [vg_inv_inv hG (sg_subset hH hb)] at h1
  exact h1

/-- Membership in a built left coset. -/
theorem mem_leftCoset {G : RawGroup α} {H : Finset α} {g x : α} :
    x ∈ leftCoset G g H ↔ ∃ h ∈ H, G.op g h = x :=
  Finset.mem_image

/-- Membership in a built right coset. -/
theorem mem_rightCoset {G : RawGroup α} {H : Finset α} {g x : α} :
    x ∈ rightCoset G g H ↔ ∃ h ∈ H, G.op h g = x :=
  Finset.mem_image

/-- Every carrier element lies in its own left coset. -/
theorem self_mem_leftCoset {G : RawGroup α} {H : Finset α} (hG : ValidGroup G)
    (hH : SubgroupOK G H) {g : α} (hg : g ∈ G.carrier) :
    g ∈ leftCoset G g H :=
  mem_leftCoset.mpr ⟨G.e, sg_e_mem hG hH, vg_op_e hG hg⟩

/-- Left cosets of carrier elements stay inside the carrier. -/
theorem leftCoset_subset {G : RawGroup α} {H : Finset α} (hG : ValidGroup G)
    (hH : SubgroupOK G H) {g : α} (hg : g ∈ G.carrier) {x : α}
    (hx : x ∈ leftCoset G g H) : x ∈ G.carrier := by
  obtain ⟨h, hh, hx⟩ := mem_leftCoset.mp hx
  rw [← hx]
  exact vg_op_mem hG hg (sg_subset hH hh)

/-- A left coset is determined by any of its members. -/
theorem leftCoset_eq_of_mem {G : RawGroup α} {H : Finset α} (hG : ValidGroup G)
    (hH : SubgroupOK G H) {g x : α} (hg : g ∈ G.carrier)
    (hx : x ∈ leftCoset G g H) : leftCoset G x H = leftCoset G g H := by
  obtain ⟨h0, hh0, hx0⟩ := mem_leftCoset.mp hx
  have hh0c : h0 ∈ G.carrier := sg_subset hH hh0
  ext y
  constructor
  · intro hy
    obtain ⟨h1, hh1, hy1⟩ := mem_leftCoset.mp hy
    refine mem_leftCoset.mpr ⟨G.op h0 h1, sg_op_mem hG hH hh0 hh1, ?_⟩
    rw [← vg_assoc hG hg hh0c (sg_subset hH hh1), hx0, hy1]
  · intro hy
    obtain ⟨h1, hh1, hy1⟩ := mem_leftCoset.mp hy
    refine mem_leftCoset.mpr
      ⟨G.op (G.inv h0) h1, sg_op_mem hG hH (sg_inv_mem hG hH hh0) hh1, ?_⟩
    rw [← hx0, vg_assoc hG hg hh0c
      (vg_op_mem hG (vg_inv_mem hG hh0c) (sg_subset hH hh1)),
      ← vg_assoc hG hh0c (vg_inv_mem hG hh0c) (sg_subset hH hh1),
      vg_op_inv hG hh0c, vg_e_op hG (sg_subset hH hh1), hy1]

/-- All left cosets have the size of the subgroup (left translation is
injective by cancellation). -/
theorem leftCoset_card {G : RawGroup α} {H : Finset α} (hG : ValidGroup G)
    (hH : SubgroupOK G H) {g : α} (hg : g ∈ G.carrier) :
    (leftCoset G g H).card = H.card := by
  apply Finset.card_image_of_injOn
  intro x hx y hy hxy
  exact vg_left_cancel hG hg (sg_subset hH (Finset.mem_coe.mp hx))
    (sg_subset hH (Finset.mem_coe.mp hy)) hxy

/-- Invariant of the `find_all_cosets` fold: processing a list of carrier
elements starting from an accumulator of genuine left cosets appends exactly
the left cosets of the processed elements. -/
theorem findAllCosets_foldl {G : RawGroup α} {H : Finset α} (hG : ValidGroup G)
    (hH : SubgroupOK G H) :
    ∀ (l : List α) (acc : Finset (Finset α)),
      (∀ x ∈ l, x ∈ G.carrier) →
      (∀ c ∈ acc, ∃ g ∈ G.carrier, c = leftCoset G g H) →
      l.foldl
        (fun cosets g =>
          if ∃ c ∈ cosets, g ∈ c then cosets
          else insert (leftCoset G g H) cosets) acc
        = acc ∪ l.toFinset.image (fun g => leftCoset G g H) := by
  intro l
  induction l with
  | nil =>
      intro acc _ _
      simp
  | cons g l ih =>
      intro acc hl hacc
      have hg : g ∈ G.carrier := hl g (List.mem_cons_self g l)
      have hl' : ∀ x ∈ l, x ∈ G.carrier :=
        fun x hx => hl x (List.mem_cons_of_mem g hx)
      show List.foldl _ (if ∃ c ∈ acc, g ∈ c then acc
        else insert (leftCoset G g H) acc) l = _
      rw [List.toFinset_cons, Finset.image_insert]
      by_cases hskip : ∃ c ∈ acc, g ∈ c
      · rw [if_pos hskip]
        obtain ⟨c, hc, hgc⟩ := hskip
        obtain ⟨g0, hg0, hcg0⟩ := hacc c hc
        have hceq : leftCoset G g H = c := by
          rw [hcg0]
          exact leftCoset_eq_of_mem hG hH hg0 (hcg0 ▸ hgc)
        rw [ih acc hl' hacc, Finset.union_insert, hceq,
          Finset.insert_eq_self.mpr (Finset.mem_union_left _ hc)]
      · rw [if_neg hskip]
        have hacc' : ∀ c ∈ insert (leftCoset G g H) acc,
            ∃ g0 ∈ G.carrier, c = leftCoset G g0 H := by
          intro c hc
          rcases Finset.mem_insert.mp hc with hc | hc
          · exact ⟨g, hg, hc⟩
          · exact hacc c hc
        rw [ih (insert (leftCoset G g H) acc) hl' hacc',
          Finset.insert_union, Finset.union_insert]

/-- `find_all_cosets` returns exactly the set of left cosets of the carrier's
elements. -/
theorem findAllCosets_eq_image {G : RawGroup α} {H : Finset α}
    (hG : ValidGroup G) (hH : SubgroupOK G H) :
    findAllCosets G H = G.carrier.image (fun g => leftCoset G g H) := by
  unfold findAllCosets
  rw [findAllCosets_foldl hG hH (setList G.carrier) ∅
    (fun x hx => mem_setList.mp hx) (fun c hc => absurd hc (Finset.not_mem_empty c)),
    Finset.empty_union, setList_toFinset]

/-- Membership in the returned coset family. -/
theorem mem_findAllCosets {G : RawGroup α} {H : Finset α} (hG : ValidGroup G)
    (hH : SubgroupOK G H) {c : Finset α} :
    c ∈ findAllCosets G H ↔ ∃ g ∈ G.carrier, c = leftCoset G g H := by
  rw [findAllCosets_eq_image hG hH, Finset.mem_image]
  constructor
  · intro ⟨g, hg, hc⟩
    exact ⟨g, hg, hc.symm⟩
  · intro ⟨g, hg, hc⟩
    exact ⟨g, hg, hc.symm⟩

/-- Two returned cosets sharing an element are equal. -/
theorem findAllCosets_eq_of_common {G : RawGroup α} {H : Finset α}
    (hG : ValidGroup G) (hH : SubgroupOK G H) {c₁ c₂ : Finset α}
    (h₁ : c₁ ∈ findAllCosets G H) (h₂ : c₂ ∈ findAllCosets G H) {x : α}
    (hx₁ : x ∈ c₁) (hx₂ : x ∈ c₂) : c₁ = c₂ := by
  obtain ⟨g₁, hg₁, hc₁⟩ := (mem_findAllCosets hG hH).mp h₁
  obtain ⟨g₂, hg₂, hc₂⟩ := (mem_findAllCosets hG hH).mp h₂
  rw [hc₁, ← leftCoset_eq_of_mem hG hH hg₁ (hc₁ ▸ hx₁),
    hc₂, ← leftCoset_eq_of_mem hG hH hg₂ (hc₂ ▸ hx₂)]

/-- The returned cosets cover exactly the carrier. -/
theorem findAllCosets_biUnion {G : RawGroup α} {H : Finset α}
    (hG : ValidGroup G) (hH : SubgroupOK G H) :
    (findAllCosets G H).biUnion id = G.carrier := by
  ext x
  rw [Finset.mem_biUnion]
  constructor
  · intro ⟨c, hc, hx⟩
    obtain ⟨g, hg, hcg⟩ := (mem_findAllCosets hG hH).mp hc
    exact leftCoset_subset hG hH hg (hcg ▸ hx)
  · intro hx
    exact ⟨leftCoset G x H, (mem_findAllCosets hG hH).mpr ⟨x, hx, rfl⟩,
      self_mem_leftCoset hG hH hx⟩

/-- C2: For a valid group and a verified subgroup, `find_all_cosets` returns a
family of left cosets partitioning the carrier — their union is the carrier
and every element lies in exactly one returned coset — and
`|G| = |H| × index` holds exactly, so `LagrangesTheorem::verify` returns
true. -/
theorem lagrange_partition (G : RawGroup α) (H : Finset α) (hG : ValidGroup G)
    (hH : SubgroupOK G H) :
    (∀ c ∈ findAllCosets G H, ∃ g ∈ G.carrier, c = leftCoset G g H) ∧
    (findAllCosets G H).biUnion id = G.carrier ∧
    (∀ x ∈ G.carrier, ∃! c, c ∈ findAllCosets G H ∧ x ∈ c) ∧
    G.carrier.card = H.card * (findAllCosets G H).card ∧
    lagrangeVerify G H = true := by
  have hcover := findAllCosets_biUnion hG hH
  have hcard : G.carrier.card = H.card * (findAllCosets G H).card := by
    have hdisj : ∀ c₁ ∈ findAllCosets G H, ∀ c₂ ∈ findAllCosets G H,
        c₁ ≠ c₂ → Disjoint (id c₁) (id c₂) := by
      intro c₁ h₁ c₂ h₂ hne
      rw [Finset.disjoint_left]
      intro x hx₁ hx₂
      exact hne (findAllCosets_eq_of_common hG hH h₁ h₂ hx₁ hx₂)
    have h1 : G.carrier.card = ((findAllCosets G H).biUnion id).card := by
      rw [hcover]
    rw [h1, Finset.card_biUnion hdisj]
    have h2 : ∀ c ∈ findAllCosets G H, (id c).card = H.card := by
      intro c hc
      obtain ⟨g, hg, hcg⟩ := (mem_findAllCosets hG hH).mp hc
      show c.card = H.card
      rw [hcg]
      exact leftCoset_card hG hH hg
    rw [Finset.sum_congr rfl h2, Finset.sum_const, smul_eq_mul, mul_comm]
  refine ⟨fun c hc => (mem_findAllCosets hG hH).mp hc, hcover, ?_, hcard, ?_⟩
  · intro x hx
    refine ⟨leftCoset G x H,
      ⟨(mem_findAllCosets hG hH).mpr ⟨x, hx, rfl⟩,
        self_mem_leftCoset hG hH hx⟩, ?_⟩
    intro c ⟨hc, hxc⟩
    exact findAllCosets_eq_of_common hG hH hc
      ((mem_findAllCosets hG hH).mpr ⟨x, hx, rfl⟩) hxc
      (self_mem_leftCoset hG hH hx)
  · unfold lagrangeVerify
    rw [Nat.beq_eq_true_eq]
    exact hcard

/-- Witness for C2 on Z₆ with the subgroup {0,3}. -/
theorem lagrange_partition_witness :
    SubgroupOK Z6 {0, 3} ∧
    Z6.carrier.card = Finset.card {0, 3} * (findAllCosets Z6 {0, 3}).card ∧
    lagrangeVerify Z6 {0, 3} = true :=
  ⟨by decide, (lagrange_partition Z6 {0, 3} (by decide) (by decide)).2.2.2.1,
    (lagrange_partition Z6 {0, 3} (by decide) (by decide)).2.2.2.2⟩

/-- C4: For a valid group and a verified subgroup, the conjugation-based
normality check and the coset-based normality check agree:
`g∘n∘g⁻¹ ∈ N` for all `g ∈ G`, `n ∈ N` holds exactly when `gN = Ng` for all
`g ∈ G`. -/
theorem normal_checks_agree (G : RawGroup α) (H : Finset α) (hG : ValidGroup G)
    (hH : SubgroupOK G H) : NormalConj G H ↔ NormalCosets G H := by
  constructor
  · intro hconj g hg
    have hginv : G.inv g ∈ G.carrier := vg_inv_mem hG hg
    ext x
    constructor
    · intro hx
      obtain ⟨n, hn, hxn⟩ := mem_leftCoset.mp hx
      have hnc : n ∈ G.carrier := sg_subset hH hn
      refine mem_rightCoset.mpr ⟨G.op (G.op g n) (G.inv g), hconj g hg n hn, ?_⟩
      rw [vg_assoc hG (vg_op_mem hG hg hnc) hginv hg, vg_inv_op hG hg,
        vg_op_e hG (vg_op_mem hG hg hnc), hxn]
    · intro hx
      obtain ⟨n, hn, hxn⟩ := mem_rightCoset.mp hx
      have hnc : n ∈ G.carrier := sg_subset hH hn
      have hm : G.op (G.op (G.inv g) n) (G.inv (G.inv g)) ∈ H :=
        hconj (G.inv g) hginv n hn
      rw [vg_inv_inv hG hg] at hm
      refine mem_leftCoset.mpr ⟨G.op (G.op (G.inv g) n) g, hm, ?_⟩
      rw [← vg_assoc hG hg (vg_op_mem hG hginv hnc) hg,
        ← vg_assoc hG hg hginv hnc, vg_op_inv hG hg, vg_e_op hG hnc, hxn]
  · intro hcos g hg n hn
    have hnc : n ∈ G.carrier := sg_subset hH hn
    have hmem : G.op g n ∈ leftCoset G g H := mem_leftCoset.mpr ⟨n, hn, rfl⟩
    rw [hcos g hg] at hmem
    obtain ⟨m, hm, hmg⟩ := mem_rightCoset.mp hmem
    have hmc : m ∈ G.carrier := sg_subset hH hm
    have : G.op (G.op g n) (G.inv g) = m := by
      rw [← hmg, vg_assoc hG hmc hg (vg_inv_mem hG hg), vg_op_inv hG hg,
        vg_op_e hG hmc]
    rw [this]
    exact hm

/-- Witness for C4 on Z₆ with the subgroup {0,3}: both checks return true. -/
theorem normal_checks_agree_witness :
    ValidGroup Z6 ∧ SubgroupOK Z6 {0, 3} ∧
    (NormalConj Z6 {0, 3} ↔ NormalCosets Z6 {0, 3}) :=
  ⟨by decide, by decide, normal_checks_agree Z6 {0, 3} (by decide) (by decide)⟩

/-- A monadic insert-fold over steps that all succeed succeeds with the
collected images. -/
theorem foldlM_insert_ok (step : α → Except GroupErr α) (φ : α → α) :
    ∀ (l : List α) (acc : Finset α), (∀ h ∈ l, step h = .ok (φ h)) →
      l.foldlM (fun acc h => (step h).map (fun x => insert x acc)) acc
        = .ok (acc ∪ l.toFinset.image φ) := by
  intro l
  induction l with
  | nil =>
      intro acc _
      show pure acc = Except.ok (acc ∪ _)
      rw [List.toFinset_nil, Finset.image_empty, Finset.union_empty]
      rfl
  | cons h l ih =>
      intro acc hok
      rw [List.foldlM_cons, hok h (List.mem_cons_self h l)]
      show (Except.ok (insert (φ h) acc) >>= fun a => List.foldlM _ a l) = _
      show List.foldlM _ (insert (φ h) acc) l = _
      rw [ih (insert (φ h) acc)
        (fun x hx => hok x (List.mem_cons_of_mem h hx)),
        List.toFinset_cons, Finset.image_insert, Finset.insert_union,
        Finset.union_insert]

/-- C6 counterexample: the `Coset` constructor does not succeed for *every*
representative element: with the valid group Z₆, its verified subgroup {0,3}
and the foreign representative 7, the first `operate` call throws a domain
error and construction fails. -/
theorem coset_ctor_foreign_rep_fails :
    ValidGroup Z6 ∧ SubgroupOK Z6 {0, 3} ∧
    buildCosetE Z6 {0, 3} 7 .left = .error .elementNotInDomain := by
  refine ⟨by decide, by decide, ?_⟩
  decide

/-- C6 (amended): For a valid group, a verified subgroup of it and a
representative in the parent carrier, the `Coset` constructor succeeds on
either side, producing the corresponding left or right coset (no `operate`
call can throw). -/
theorem coset_ctor_succeeds (G : RawGroup α) (H : Finset α) (hG : ValidGroup G)
    (hH : SubgroupOK G H) (rep : α) (hrep : rep ∈ G.carrier) :
    buildCosetE G H rep .left = .ok (leftCoset G rep H) ∧
    buildCosetE G H rep .right = .ok (rightCoset G rep H) := by
  constructor
  · show (setList H).foldlM _ ∅ = _
    rw [foldlM_insert_ok (fun h => operateE G rep h) (fun h => G.op rep h)
      (setList H) ∅
      (fun h hh => operateE_ok G hG.1 hrep (sg_subset hH (mem_setList.mp hh))),
      Finset.empty_union, setList_toFinset]
    rfl
  · show (setList H).foldlM _ ∅ = _
    rw [foldlM_insert_ok (fun h => operateE G h rep) (fun h => G.op h rep)
      (setList H) ∅
      (fun h hh => operateE_ok G hG.1 (sg_subset hH (mem_setList.mp hh)) hrep),
      Finset.empty_union, setList_toFinset]
    rfl

/-- Witness for C6 on Z₆, subgroup {0,3}, representative 2, both sides. -/
theorem coset_ctor_succeeds_witness :
    SubgroupOK Z6 {0, 3} ∧
    buildCosetE Z6 {0, 3} 2 .left = .ok (leftCoset Z6 2 {0, 3}) ∧
    buildCosetE Z6 {0, 3} 2 .right = .ok (rightCoset Z6 2 {0, 3}) :=
  ⟨by decide,
    (coset_ctor_succeeds Z6 {0, 3} (by decide) (by decide) 2 (by decide)).1,
    (coset_ctor_succeeds Z6 {0, 3} (by decide) (by decide) 2 (by decide)).2⟩

/-- Well-definedness of the induced quotient operation: replacing `a` and `b`
by any members of their cosets leaves the coset of the product unchanged.
This is where normality is used. -/
theorem leftCoset_op_well_defined {G : RawGroup α} {H : Finset α}
    (hG : ValidGroup G) (hH : SubgroupOK G H) (hN : NormalConj G H)
    {a b a' b' : α} (ha : a ∈ G.carrier) (hb : b ∈ G.carrier)
    (ha' : a' ∈ leftCoset G a H) (hb' : b' ∈ leftCoset G b H) :
    leftCoset G (G.op a' b') H = leftCoset G (G.op a b) H := by
  obtain ⟨n₁, hn₁, ha'eq⟩ := mem_leftCoset.mp ha'
  obtain ⟨n₂, hn₂, hb'eq⟩ := mem_leftCoset.mp hb'
  have hn₁c : n₁ ∈ G.carrier := sg_subset hH hn₁
  have hn₂c : n₂ ∈ G.carrier := sg_subset hH hn₂
  have hbinv : G.inv b ∈ G.carrier := vg_inv_mem hG hb
  have hm : G.op (G.op (G.inv b) n₁) (G.inv (G.inv b)) ∈ H :=
    hN (G.inv b) hbinv n₁ hn₁
  rw [vg_inv_inv hG hb] at hm
  set m := G.op (G.op (G.inv b) n₁) b with hmdef
  have hmc : m ∈ G.carrier := sg_subset hH hm
  have hswap : G.op n₁ b = G.op b m := by
    rw [hmdef, ← vg_assoc hG hb (vg_op_mem hG hbinv hn₁c) hb,
      ← vg_assoc hG hb hbinv hn₁c, vg_op_inv hG hb, vg_e_op hG hn₁c]
  apply leftCoset_eq_of_mem hG hH (vg_op_mem hG ha hb)
  refine mem_leftCoset.mpr ⟨G.op m n₂, sg_op_mem hG hH hm hn₂, ?_⟩
  have hgoal : G.op (G.op a b) (G.op m n₂) = G.op (G.op a n₁) (G.op b n₂) := by
    calc G.op (G.op a b) (G.op m n₂)
        = G.op a (G.op b (G.op m n₂)) :=
          vg_assoc hG ha hb (vg_op_mem hG hmc hn₂c)
      _ = G.op a (G.op (G.op b m) n₂) := by rw [vg_assoc hG hb hmc hn₂c]
      _ = G.op a (G.op (G.op n₁ b) n₂) := by rw [hswap]
      _ = G.op a (G.op n₁ (G.op b n₂)) := by rw [vg_assoc hG hn₁c hb hn₂c]
      _ = G.op (G.op a n₁) (G.op b n₂) :=
          (vg_assoc hG ha hn₁c (vg_op_mem hG hb hn₂c)).symm
  rw [← ha'eq, ← hb'eq]
  exact hgoal

/-- Every member of a returned coset is a carrier element representing it. -/
theorem mem_coset_rep {G : RawGroup α} {H : Finset α} (hG : ValidGroup G)
    (hH : SubgroupOK G H) {A : Finset α} (hA : A ∈ findAllCosets G H) {a : α}
    (haA : a ∈ A) : A = leftCoset G a H ∧ a ∈ G.carrier := by
  obtain ⟨g, hg, hAg⟩ := (mem_findAllCosets hG hH).mp hA
  have hmem : a ∈ leftCoset G g H := hAg ▸ haA
  constructor
  · rw [hAg]
    exact (leftCoset_eq_of_mem hG hH hg hmem).symm
  · exact leftCoset_subset hG hH hg hmem

/-- On a carrier element, the element→coset lookup of `FactorGroup` returns
its left coset (the unique returned coset containing it). -/
theorem findCosetContaining_ok {G : RawGroup α} {H : Finset α}
    (hG : ValidGroup G) (hH : SubgroupOK G H) {p : α} (hp : p ∈ G.carrier) :
    findCosetContaining (findAllCosets G H) p = .ok (leftCoset G p H) := by
  have hfil : (findAllCosets G H).filter (fun c => p ∈ c) =
      {leftCoset G p H} := by
    ext c
    rw [Finset.mem_filter, Finset.mem_singleton]
    constructor
    · intro ⟨hc, hpc⟩
      exact (mem_coset_rep hG hH hc hpc).1
    · intro hc
      rw [hc]
      exact ⟨(mem_findAllCosets hG hH).mpr ⟨p, hp, rfl⟩,
        self_mem_leftCoset hG hH hp⟩
  unfold findCosetContaining
  rw [hfil, Finset.image_singleton]
  rw [dif_pos (Finset.singleton_nonempty _)]
  rw [Finset.min'_singleton, setList_toFinset]

/-- C1: For a valid group, a verified normal subgroup and the coset partition
built by `FactorGroup`, the quotient operation is representative-independent:
for any cosets `A`, `B` of the partition and any members `a ∈ A`, `b ∈ B`,
`operate(A, B)` — which uses the first element of each coset as
representative — returns exactly the coset `(a∘b)N`. -/
theorem factor_operate_representative_independent (G : RawGroup α)
    (H : Finset α) (hG : ValidGroup G) (hH : SubgroupOK G H)
    (hN : NormalConj G H) {A B : Finset α} (hA : A ∈ findAllCosets G H)
    (hB : B ∈ findAllCosets G H) {a b : α} (haA : a ∈ A) (hbB : b ∈ B) :
    factorOperate G H A B = .ok (leftCoset G (G.op a b) H) := by
  obtain ⟨hAeq, haC⟩ := mem_coset_rep hG hH hA haA
  obtain ⟨hBeq, hbC⟩ := mem_coset_rep hG hH hB hbB
  obtain ⟨ra, hraA, hra⟩ := sortedFirst_mem ⟨a, haA⟩
  obtain ⟨rb, hrbB, hrb⟩ := sortedFirst_mem ⟨b, hbB⟩
  have hraC : ra ∈ G.carrier := (mem_coset_rep hG hH hA hraA).2
  have hrbC : rb ∈ G.carrier := (mem_coset_rep hG hH hB hrbB).2
  have hpC : G.op ra rb ∈ G.carrier := vg_op_mem hG hraC hrbC
  have hwd : leftCoset G (G.op ra rb) H = leftCoset G (G.op a b) H :=
    leftCoset_op_well_defined hG hH hN haC hbC (hAeq ▸ hraA) (hBeq ▸ hrbB)
  unfold factorOperate
  rw [if_pos ⟨hA, hB⟩, hra, hrb]
  show (operateE G ra rb >>= fun p => findCosetContaining (findAllCosets G H) p)
    = _
  rw [operateE_ok G hG.1 hraC hrbC]
  show findCosetContaining (findAllCosets G H) (G.op ra rb) = _
  rw [findCosetContaining_ok hG hH hpC, hwd]

/-- Witness for C1 on Z₆ with N = {0,3}: cosets {1,4} and {2,5}, members 4
and 2, product coset (4+2 mod 6)N = {0,3}. -/
theorem factor_operate_representative_independent_witness :
    NormalConj Z6 {0, 3} ∧
    ({1, 4} : Finset ℕ) ∈ findAllCosets Z6 {0, 3} ∧
    ({2, 5} : Finset ℕ) ∈ findAllCosets Z6 {0, 3} ∧
    factorOperate Z6 {0, 3} {1, 4} {2, 5} = .ok (leftCoset Z6 (Z6.op 4 2) {0, 3}) :=
  ⟨by decide, by decide, by decide,
    factor_operate_representative_independent Z6 {0, 3} (by decide) (by decide)
      (by decide) (by decide) (by decide) (by decide) (by decide)⟩

/-- A successfully computed element order is the least positive exponent whose
power is the identity. -/
theorem elementOrder_some_minimal {G : RawGroup α} (hG : ValidGroup G) {a : α}
    (ha : a ∈ G.carrier) {n : Nat}
    (hc : elementOrderCompute G a = .ok (some n)) :
    0 < n ∧ iterPow G a n = G.e ∧
      ∀ m, 0 < m → m < n → iterPow G a m ≠ G.e := by
  unfold elementOrderCompute at hc
  rw [if_neg (not_not_intro ha)] at hc
  by_cases hae : a = G.e
  · rw [if_pos hae] at hc
    have hn1 : n = 1 := by
      have := Option.some.inj (Except.ok.inj hc)
      omega
    subst hn1
    exact ⟨by omega, by rw [iterPow_one hG ha, hae], fun m h1 h2 => by omega⟩
  · rw [if_neg hae] at hc
    obtain ⟨h1, _, h3, h4⟩ :=
      (orderLoop_start_some_iff hG ha G.carrier.card n).mp (Except.ok.inj hc)
    exact ⟨by omega, h3, fun m hm1 hm2 => h4 m (by omega) hm2⟩

/-- The replay loop of `generate_cyclic_subgroup` collects consecutive powers
into the accumulator. -/
theorem cyclicLoop_eq {G : RawGroup α} {g : α} :
    ∀ (k n : Nat) (acc : Finset α),
      cyclicLoop G g k (iterPow G g n) acc =
        acc ∪ (Finset.range k).image (fun i => iterPow G g (n + i)) := by
  intro k
  induction k with
  | zero =>
      intro n acc
      simp [cyclicLoop]
  | succ k ih =>
      intro n acc
      show cyclicLoop G g k (G.op (iterPow G g n) g)
        (insert (iterPow G g n) acc) = _
      have hstep : G.op (iterPow G g n) g = iterPow G g (n + 1) := rfl
      rw [hstep, ih (n + 1) (insert (iterPow G g n) acc)]
      ext x
      simp only [Finset.mem_union, Finset.mem_insert, Finset.mem_image,
        Finset.mem_range]
      constructor
      · rintro ((hx | hx) | ⟨i, hi, hx⟩)
        · exact Or.inr ⟨0, by omega, by rw [Nat.add_zero]; exact hx.symm⟩
        · exact Or.inl hx
        · exact Or.inr ⟨i + 1, by omega,
            by rw [show n + (i + 1) = n + 1 + i from by omega]; exact hx⟩
      · rintro (hx | ⟨i, hi, hx⟩)
        · exact Or.inl (Or.inr hx)
        · cases i with
          | zero =>
              refine Or.inl (Or.inl ?_)
              rw [Nat.add_zero] at hx
              exact hx.symm
          | succ j =>
              exact Or.inr ⟨j, by omega,
                by rw [show n + 1 + j = n + (j + 1) from by omega]; exact hx⟩

/-- The replay loop as started by the source, with `current = g`. -/
theorem cyclicLoop_from_one {G : RawGroup α} (hG : ValidGroup G) {g : α}
    (hgc : g ∈ G.carrier) (k : Nat) (acc : Finset α) :
    cyclicLoop G g k g acc =
      acc ∪ (Finset.range k).image (fun i => iterPow G g (1 + i)) := by
  have h := cyclicLoop_eq (G := G) (g := g) k 1 acc
  rw [iterPow_one hG hgc] at h
  exact h

/-- C7: For a valid group and the generator discovered by
`CyclicGroup::find_generator` (an element whose order equals `|G|`),
`generate_cyclic_subgroup` returns the group's full carrier. -/
theorem cyclic_roundtrip (G : RawGroup α) (hG : ValidGroup G) (g : α)
    (hfind : findGenerator G = some g) :
    generateCyclicSubgroup G g = .ok G.carrier := by
  have hgen : isGeneratorB G g = true := List.find?_some hfind
  have hgc : g ∈ G.carrier :=
    mem_setList.mp (List.mem_of_find?_eq_some hfind)
  have hcard : 0 < G.carrier.card := Finset.card_pos.mpr ⟨g, hgc⟩
  have hord : elementOrderCompute G g = .ok (some G.carrier.card) := by
    unfold isGeneratorB at hgen
    rw [if_pos hgc] at hgen
    rcases hcomp : elementOrderCompute G g with err | o
    · rw [hcomp] at hgen
      cases hgen
    · rcases o with _ | ord
      · rw [hcomp] at hgen
        cases hgen
      · rw [hcomp] at hgen
        have hbeq : (ord == G.carrier.card) = true := hgen
        have hoe : ord = G.carrier.card := by simpa using hbeq
        rw [hoe]
  obtain ⟨_, hpow, hmin⟩ := elementOrder_some_minimal hG hgc hord
  have himage : (Finset.range G.carrier.card).image (fun i => iterPow G g i)
      = G.carrier := by
    apply Finset.eq_of_subset_of_card_le
    · intro x hx
      obtain ⟨i, _, hxi⟩ := Finset.mem_image.mp hx
      rw [← hxi]
      exact iterPow_mem hG hgc i
    · have hinj : Set.InjOn (fun i => iterPow G g i)
          (Finset.range G.carrier.card) := by
        have hkey : ∀ i j, i < G.carrier.card → j < G.carrier.card → i ≤ j →
            iterPow G g i = iterPow G g j → i = j := by
          intro i j hi hj hle heq
          by_contra hne
          have hlt : i < j := lt_of_le_of_ne hle hne
          have hsplit : iterPow G g j =
              G.op (iterPow G g i) (iterPow G g (j - i)) := by
            rw [← iterPow_add hG hgc i (j - i),
              show i + (j - i) = j from by omega]
          have h2 : G.op (iterPow G g i) (iterPow G g (j - i)) =
              G.op (iterPow G g i) G.e := by
            rw [← hsplit, ← heq, vg_op_e hG (iterPow_mem hG hgc i)]
          have h4 : iterPow G g (j - i) = G.e :=
            vg_left_cancel hG (iterPow_mem hG hgc i)
              (iterPow_mem hG hgc (j - i)) (vg_e_mem hG) h2
          exact hmin (j - i) (by omega) (by omega) h4
        intro i hi j hj hij
        have hi' : i < G.carrier.card :=
          Finset.mem_range.mp (Finset.mem_coe.mp hi)
        have hj' : j < G.carrier.card :=
          Finset.mem_range.mp (Finset.mem_coe.mp hj)
        rcases le_total i j with h | h
        · exact hkey i j hi' hj' h hij
        · exact (hkey j i hj' hi' h hij.symm).symm
      rw [Finset.card_image_of_injOn hinj, Finset.card_range]
  unfold generateCyclicSubgroup
  rw [if_neg (not_not_intro hgc), hord]
  have hset : ({G.e} : Finset α) ∪
      (Finset.range (G.carrier.card - 1)).image (fun i => iterPow G g (1 + i))
      = (Finset.range G.carrier.card).image (fun i => iterPow G g i) := by
    ext x
    simp only [Finset.mem_union, Finset.mem_singleton, Finset.mem_image,
      Finset.mem_range]
    constructor
    · rintro (hx | ⟨i, hi, hx⟩)
      · exact ⟨0, by omega, hx.symm⟩
      · exact ⟨1 + i, by omega, hx⟩
    · rintro ⟨j, hj, hx⟩
      cases j with
      | zero => exact Or.inl hx.symm
      | succ i =>
          exact Or.inr ⟨i, by omega,
            by rw [show 1 + i = i + 1 from by omega]; exact hx⟩
  have hloop : cyclicLoop G g (G.carrier.card - 1) g {G.e} = G.carrier := by
    rw [cyclicLoop_from_one hG hgc, hset, himage]
  show Except.ok (cyclicLoop G g (G.carrier.card - 1) g {G.e}) =
    Except.ok G.carrier
  rw [hloop]

/-- Witness for C7 on Z₆: the discovered generator is 1, whose cyclic
subgroup is the whole carrier. -/
theorem cyclic_roundtrip_witness :
    findGenerator Z6 = some 1 ∧
    generateCyclicSubgroup Z6 1 = .ok Z6.carrier :=
  ⟨by decide, cyclic_roundtrip Z6 (by decide) 1 (by decide)⟩

end CryptoMath
